import Mathlib

/-!
Verification of the `carta` concurrent hash map (`src/lib.rs`).

The map is embedded sequentially: each `RwLock<Vec<..>>` bucket becomes a
plain list, the `Arc<V>` value cell becomes a plain `V`, and the four public
operations become pure functions threading the map state explicitly.
The `BuildHasher` collaborator is embedded as a pure digest function
`K → Nat`; the Rust hasher's `finish` returns a `u64`, which is modelled by
reducing the digest modulo `2 ^ 64` at the single point where it is consumed
(`Carta.get_index`).  A freshly built hasher per call means the digest depends
on the key alone, never on hasher state left over from earlier calls, which is
exactly what a pure function of the key expresses.
-/

/-- The hash map: a digest function (from the `BuildHasher`) plus the bucket
vector.  Mirrors `struct Carta { hash_builder, buckets }` in `src/lib.rs`,
with each bucket's `Vec<(K, RwLock<Arc<V>>)>` flattened to `List (K × V)`. -/
structure Carta (K V : Type) where
  hash : K → Nat
  buckets : List (List (K × V))

/-- `Carta::new_with_hash_builder`: `(0..2048 * 16).map(|_| RwLock::new(Vec::new())).collect()`. -/
def Carta.new_with_hash_builder {K V : Type} (hash : K → Nat) : Carta K V :=
  { hash := hash, buckets := List.replicate (2048 * 16) [] }

/-- `Carta::get_index`: `(hash % self.buckets.len() as u64) as usize`, with the
`u64` digest `hasher.finish()` modelled as `hash key % 2 ^ 64`. -/
def Carta.get_index {K V : Type} (m : Carta K V) (key : K) : Nat :=
  (m.hash key % 2 ^ 64) % m.buckets.length

/-- The scan loop of `Carta::insert`: walk the bucket, replace the value of the
first entry whose key equals `key` and return the previous value; if no entry
matches, push `(key, value)` at the end and return nothing. -/
def insertLoop {K V : Type} [DecidableEq K] (key : K) (value : V) :
    List (K × V) → Option V × List (K × V)
  | [] => (none, [(key, value)])
  | (k, v) :: rest =>
    if k = key then (some v, (k, value) :: rest)
    else
      let r := insertLoop key value rest
      (r.1, (k, v) :: r.2)

/-- The scan loop of `Carta::get`: return the value of the first entry whose
key equals `key`, or nothing. -/
def getLoop {K V : Type} [DecidableEq K] (key : K) : List (K × V) → Option V
  | [] => none
  | (k, v) :: rest => if k = key then some v else getLoop key rest

/-- The scan of `Carta::remove`: `Vec::remove` at the position of the first
matching entry (shifting the rest left, order preserved), returning its value. -/
def removeLoop {K V : Type} [DecidableEq K] (key : K) :
    List (K × V) → Option V × List (K × V)
  | [] => (none, [])
  | (k, v) :: rest =>
    if k = key then (some v, rest)
    else
      let r := removeLoop key rest
      (r.1, (k, v) :: r.2)

/-- The scan loop of `Carta::update`: apply `f` in place to the value of the
first matching entry and return the resulting (new) value, `v.clone()`. -/
def updateLoop {K V : Type} [DecidableEq K] (key : K) (f : V → V) :
    List (K × V) → Option V × List (K × V)
  | [] => (none, [])
  | (k, v) :: rest =>
    if k = key then (some (f v), (k, f v) :: rest)
    else
      let r := updateLoop key f rest
      (r.1, (k, v) :: r.2)

/-- `Carta::insert`: resolve the index, run the scan loop on that bucket, and
write the updated bucket back.  Returns the previous value and the new map. -/
def Carta.insert {K V : Type} [DecidableEq K] (m : Carta K V) (key : K)
    (value : V) : Option V × Carta K V :=
  let index := m.get_index key
  let r := insertLoop key value (m.buckets.getD index [])
  (r.1, { m with buckets := m.buckets.set index r.2 })

/-- `Carta::get`: resolve the index and scan that bucket for the key. -/
def Carta.get {K V : Type} [DecidableEq K] (m : Carta K V) (key : K) :
    Option V :=
  getLoop key (m.buckets.getD (m.get_index key) [])

/-- `Carta::remove`: resolve the index, delete the first matching entry from
that bucket, returning its value and the new map. -/
def Carta.remove {K V : Type} [DecidableEq K] (m : Carta K V) (key : K) :
    Option V × Carta K V :=
  let index := m.get_index key
  let r := removeLoop key (m.buckets.getD index [])
  (r.1, { m with buckets := m.buckets.set index r.2 })

/-- `Carta::update`: resolve the index, apply `f` to the first matching
entry's value in place, returning the resulting value and the new map. -/
def Carta.update {K V : Type} [DecidableEq K] (m : Carta K V) (key : K)
    (f : V → V) : Option V × Carta K V :=
  let index := m.get_index key
  let r := updateLoop key f (m.buckets.getD index [])
  (r.1, { m with buckets := m.buckets.set index r.2 })

/-- One public mutating call on the map, for stating trace properties. -/
inductive Op (K V : Type) where
  | insert : K → V → Op K V
  | remove : K → Op K V
  | update : K → (V → V) → Op K V

/-- Apply one operation to the map (discarding the returned value). -/
def Carta.applyOp {K V : Type} [DecidableEq K] (m : Carta K V) :
    Op K V → Carta K V
  | Op.insert k v => (m.insert k v).2
  | Op.remove k => (m.remove k).2
  | Op.update k f => (m.update k f).2

/-- Apply a sequence of operations left to right. -/
def Carta.applyOps {K V : Type} [DecidableEq K] (m : Carta K V)
    (ops : List (Op K V)) : Carta K V :=
  ops.foldl Carta.applyOp m

/-- The keys stored in one bucket, in order. -/
def keys {K V : Type} (b : List (K × V)) : List K := b.map Prod.fst

/-- Key `k` appears in no bucket of the map. -/
def Carta.Absent {K V : Type} (m : Carta K V) (k : K) : Prop :=
  ∀ b ∈ m.buckets, k ∉ keys b

/-- The representation invariant: within every single bucket, at most one
entry exists per distinct key (keys compared by equality). -/
def Carta.KeysNodup {K V : Type} (m : Carta K V) : Prop :=
  ∀ b ∈ m.buckets, (keys b).Nodup

section ListLemmas

variable {α : Type}

theorem getD_set_self (l : List α) (i : Nat) (b d : α) (h : i < l.length) :
    (l.set i b).getD i d = b := by
  induction l generalizing i with
  | nil => simp at h
  | cons a t ih =>
    cases i with
    | zero => rfl
    | succ n =>
      simp only [List.set_cons_succ, List.getD_cons_succ]
      exact ih n (by simpa using h)

theorem set_getD_self (l : List α) (i : Nat) (d : α) :
    l.set i (l.getD i d) = l := by
  induction l generalizing i with
  | nil => rfl
  | cons a t ih =>
    cases i with
    | zero => rfl
    | succ n =>
      simp only [List.set_cons_succ, List.getD_cons_succ]
      rw [ih]

theorem getD_mem (l : List α) (i : Nat) (d : α) (h : i < l.length) :
    l.getD i d ∈ l := by
  induction l generalizing i with
  | nil => simp at h
  | cons a t ih =>
    cases i with
    | zero => simp [List.getD_cons_zero]
    | succ n =>
      simp only [List.getD_cons_succ]
      exact List.mem_cons_of_mem a (ih n (by simpa using h))

theorem getD_oob (l : List α) (i : Nat) (d : α) (h : l.length ≤ i) :
    l.getD i d = d := by
  induction l generalizing i with
  | nil => cases i <;> rfl
  | cons a t ih =>
    cases i with
    | zero => simp at h
    | succ n =>
      simp only [List.getD_cons_succ]
      exact ih n (by simpa using h)

theorem mem_of_mem_set (l : List α) (i : Nat) (b a : α) (h : a ∈ l.set i b) :
    a = b ∨ a ∈ l := by
  induction l generalizing i with
  | nil => simp at h
  | cons x t ih =>
    cases i with
    | zero =>
      rcases List.mem_cons.mp h with h1 | h1
      · exact Or.inl h1
      · exact Or.inr (List.mem_cons_of_mem x h1)
    | succ n =>
      rcases List.mem_cons.mp h with h1 | h1
      · exact Or.inr (h1 ▸ List.mem_cons_self x t)
      · rcases ih n h1 with h2 | h2
        · exact Or.inl h2
        · exact Or.inr (List.mem_cons_of_mem x h2)

end ListLemmas

section BucketLemmas

variable {K V : Type} [DecidableEq K]

theorem getLoop_eq_none {key : K} {b : List (K × V)} (h : key ∉ keys b) :
    getLoop key b = none := by
  induction b with
  | nil => rfl
  | cons e rest ih =>
    obtain ⟨k, v⟩ := e
    simp only [keys, List.map_cons, List.mem_cons, not_or] at h
    simp only [getLoop]
    rw [if_neg (fun hk => h.1 hk.symm)]
    exact ih (by simpa [keys] using h.2)

theorem getLoop_insertLoop_self (key : K) (value : V) (b : List (K × V)) :
    getLoop key (insertLoop key value b).2 = some value := by
  induction b with
  | nil => simp [insertLoop, getLoop]
  | cons e rest ih =>
    obtain ⟨k, v⟩ := e
    by_cases hk : k = key
    · simp [insertLoop, getLoop, hk]
    · simp [insertLoop, getLoop, hk, ih]

theorem insertLoop_fst (key : K) (value : V) (b : List (K × V)) :
    (insertLoop key value b).1 = getLoop key b := by
  induction b with
  | nil => rfl
  | cons e rest ih =>
    obtain ⟨k, v⟩ := e
    by_cases hk : k = key <;> simp [insertLoop, getLoop, hk, ih]

theorem removeLoop_fst (key : K) (b : List (K × V)) :
    (removeLoop key b).1 = getLoop key b := by
  induction b with
  | nil => rfl
  | cons e rest ih =>
    obtain ⟨k, v⟩ := e
    by_cases hk : k = key <;> simp [removeLoop, getLoop, hk, ih]

theorem updateLoop_fst (key : K) (f : V → V) (b : List (K × V)) :
    (updateLoop key f b).1 = (getLoop key b).map f := by
  induction b with
  | nil => rfl
  | cons e rest ih =>
    obtain ⟨k, v⟩ := e
    by_cases hk : k = key <;> simp [updateLoop, getLoop, hk, ih]

theorem getLoop_updateLoop_self (key : K) (f : V → V) (b : List (K × V)) :
    getLoop key (updateLoop key f b).2 = (getLoop key b).map f := by
  induction b with
  | nil => rfl
  | cons e rest ih =>
    obtain ⟨k, v⟩ := e
    by_cases hk : k = key <;> simp [updateLoop, getLoop, hk, ih]

theorem updateLoop_snd_of_none {key : K} {f : V → V} {b : List (K × V)}
    (h : getLoop key b = none) : (updateLoop key f b).2 = b := by
  induction b with
  | nil => rfl
  | cons e rest ih =>
    obtain ⟨k, v⟩ := e
    by_cases hk : k = key
    · simp [getLoop, hk] at h
    · simp only [getLoop, if_neg hk] at h
      simp [updateLoop, hk, ih h]

theorem keys_insertLoop_sub {key : K} {value : V} {b : List (K × V)} {x : K}
    (h : x ∈ keys (insertLoop key value b).2) : x ∈ keys b ∨ x = key := by
  induction b with
  | nil => simpa [insertLoop, keys] using h
  | cons e rest ih =>
    obtain ⟨k, v⟩ := e
    by_cases hk : k = key
    · simp only [insertLoop, if_pos hk] at h
      exact Or.inl (by simpa [keys] using h)
    · simp only [insertLoop, if_neg hk, keys, List.map_cons, List.mem_cons] at h
      rcases h with h | h
      · exact Or.inl (by simp [keys, h])
      · rcases ih (by simpa [keys] using h) with h2 | h2
        · exact Or.inl (by simp [keys]; exact Or.inr (by simpa [keys] using h2))
        · exact Or.inr h2

theorem mem_keys_removeLoop {key : K} {b : List (K × V)} {x : K}
    (h : x ∈ keys (removeLoop key b).2) : x ∈ keys b := by
  induction b with
  | nil => simpa [removeLoop] using h
  | cons e rest ih =>
    obtain ⟨k, v⟩ := e
    by_cases hk : k = key
    · simp only [removeLoop, if_pos hk] at h
      simp [keys] at h ⊢
      exact Or.inr h
    · simp only [removeLoop, if_neg hk, keys, List.map_cons, List.mem_cons] at h
      rcases h with h | h
      · simp [keys, h]
      · simp [keys]
        exact Or.inr (by simpa [keys] using ih (by simpa [keys] using h))

theorem keys_updateLoop (key : K) (f : V → V) (b : List (K × V)) :
    keys (updateLoop key f b).2 = keys b := by
  induction b with
  | nil => rfl
  | cons e rest ih =>
    obtain ⟨k, v⟩ := e
    by_cases hk : k = key
    · simp [updateLoop, keys, hk]
    · simp only [updateLoop, if_neg hk, keys, List.map_cons]
      have ih2 : List.map Prod.fst (updateLoop key f rest).2 = List.map Prod.fst rest := by
        simpa [keys] using ih
      rw [ih2]

theorem nodup_insertLoop {key : K} {value : V} {b : List (K × V)}
    (h : (keys b).Nodup) : (keys (insertLoop key value b).2).Nodup := by
  induction b with
  | nil => simp [insertLoop, keys]
  | cons e rest ih =>
    obtain ⟨k, v⟩ := e
    simp only [keys, List.map_cons, List.nodup_cons] at h
    by_cases hk : k = key
    · simp only [insertLoop, if_pos hk, keys, List.map_cons, List.nodup_cons]
      exact ⟨by simpa [keys] using h.1, by simpa [keys] using h.2⟩
    · simp only [insertLoop, if_neg hk, keys, List.map_cons, List.nodup_cons]
      refine ⟨fun hmem => ?_, by simpa [keys] using ih (by simpa [keys] using h.2)⟩
      rcases keys_insertLoop_sub (by simpa [keys] using hmem) with h2 | h2
      · exact h.1 (by simpa [keys] using h2)
      · exact hk h2

theorem nodup_removeLoop {key : K} {b : List (K × V)}
    (h : (keys b).Nodup) : (keys (removeLoop key b).2).Nodup := by
  induction b with
  | nil => simp [removeLoop, keys]
  | cons e rest ih =>
    obtain ⟨k, v⟩ := e
    simp only [keys, List.map_cons, List.nodup_cons] at h
    by_cases hk : k = key
    · simp only [removeLoop, if_pos hk]
      exact h.2
    · simp only [removeLoop, if_neg hk, keys, List.map_cons, List.nodup_cons]
      refine ⟨fun hmem => ?_, by simpa [keys] using ih (by simpa [keys] using h.2)⟩
      exact h.1 (by simpa [keys] using mem_keys_removeLoop (by simpa [keys] using hmem))

theorem getLoop_removeLoop_self {key : K} {b : List (K × V)}
    (h : (keys b).Nodup) : getLoop key (removeLoop key b).2 = none := by
  induction b with
  | nil => rfl
  | cons e rest ih =>
    obtain ⟨k, v⟩ := e
    simp only [keys, List.map_cons, List.nodup_cons] at h
    by_cases hk : k = key
    · simp only [removeLoop, if_pos hk]
      exact getLoop_eq_none (fun hmem => h.1 (hk ▸ (by simpa [keys] using hmem)))
    · simp only [removeLoop, if_neg hk, getLoop]
      exact ih (by simpa [keys] using h.2)

end BucketLemmas

section MapLemmas

variable {K V : Type}

theorem get_index_set (m : Carta K V) (i : Nat) (b : List (K × V)) (k : K) :
    Carta.get_index { m with buckets := m.buckets.set i b } k =
      Carta.get_index m k := by
  simp [Carta.get_index, List.length_set]

theorem get_index_lt_of_pos (m : Carta K V) (k : K) (h : 0 < m.buckets.length) :
    Carta.get_index m k < m.buckets.length := Nat.mod_lt _ h

theorem length_new (hf : K → Nat) :
    (Carta.new_with_hash_builder (V := V) hf).buckets.length = 2048 * 16 := by
  show (List.replicate (2048 * 16) ([] : List (K × V))).length = 2048 * 16
  exact List.length_replicate _ _

theorem insert_snd [DecidableEq K] (m : Carta K V) (k : K) (v : V) :
    (m.insert k v).2 = { m with buckets := m.buckets.set (m.get_index k) (insertLoop k v (m.buckets.getD (m.get_index k) [])).2 } := rfl

theorem remove_snd [DecidableEq K] (m : Carta K V) (k : K) :
    (m.remove k).2 = { m with buckets := m.buckets.set (m.get_index k) (removeLoop k (m.buckets.getD (m.get_index k) [])).2 } := rfl

theorem update_snd [DecidableEq K] (m : Carta K V) (k : K) (f : V → V) :
    (m.update k f).2 = { m with buckets := m.buckets.set (m.get_index k) (updateLoop k f (m.buckets.getD (m.get_index k) [])).2 } := rfl

theorem get_def [DecidableEq K] (m : Carta K V) (k : K) :
    m.get k = getLoop k (m.buckets.getD (m.get_index k) []) := rfl

theorem get_insert_self [DecidableEq K] (m : Carta K V) (k : K) (v : V)
    (h : 0 < m.buckets.length) : (m.insert k v).2.get k = some v := by
  have hi : Carta.get_index m k < m.buckets.length := Nat.mod_lt _ h
  rw [insert_snd, get_def, get_index_set]
  show getLoop k ((m.buckets.set (m.get_index k) (insertLoop k v (m.buckets.getD (m.get_index k) [])).2).getD (m.get_index k) []) = some v
  rw [getD_set_self _ _ _ _ hi]
  exact getLoop_insertLoop_self k v _

theorem insert_fst_eq_get [DecidableEq K] (m : Carta K V) (k : K) (v : V) :
    (m.insert k v).1 = m.get k := by
  show (insertLoop k v (m.buckets.getD (m.get_index k) [])).1 = m.get k
  rw [insertLoop_fst]
  rfl

theorem remove_fst_eq_get [DecidableEq K] (m : Carta K V) (k : K) :
    (m.remove k).1 = m.get k := by
  show (removeLoop k (m.buckets.getD (m.get_index k) [])).1 = m.get k
  rw [removeLoop_fst]
  rfl

theorem update_fst_eq_get [DecidableEq K] (m : Carta K V) (k : K) (f : V → V) :
    (m.update k f).1 = (m.get k).map f := by
  show (updateLoop k f (m.buckets.getD (m.get_index k) [])).1 = (m.get k).map f
  rw [updateLoop_fst]
  rfl

theorem get_update_self [DecidableEq K] (m : Carta K V) (k : K) (f : V → V)
    (h : 0 < m.buckets.length) : (m.update k f).2.get k = (m.get k).map f := by
  have hi : Carta.get_index m k < m.buckets.length := Nat.mod_lt _ h
  rw [update_snd, get_def, get_index_set]
  show getLoop k ((m.buckets.set (m.get_index k) (updateLoop k f (m.buckets.getD (m.get_index k) [])).2).getD (m.get_index k) []) = (m.get k).map f
  rw [getD_set_self _ _ _ _ hi]
  exact getLoop_updateLoop_self k f _

theorem update_snd_of_get_none [DecidableEq K] (m : Carta K V) (k : K)
    (f : V → V) (h : m.get k = none) : (m.update k f).2 = m := by
  have h2 : getLoop k (m.buckets.getD (m.get_index k) []) = none := h
  rw [update_snd, updateLoop_snd_of_none h2, set_getD_self]

theorem get_remove_self [DecidableEq K] (m : Carta K V) (k : K)
    (h : 0 < m.buckets.length) (hnd : m.KeysNodup) :
    (m.remove k).2.get k = none := by
  have hi : Carta.get_index m k < m.buckets.length := Nat.mod_lt _ h
  rw [remove_snd, get_def, get_index_set]
  show getLoop k ((m.buckets.set (m.get_index k) (removeLoop k (m.buckets.getD (m.get_index k) [])).2).getD (m.get_index k) []) = none
  rw [getD_set_self _ _ _ _ hi]
  exact getLoop_removeLoop_self (hnd _ (getD_mem _ _ _ hi))

theorem keysNodup_set {m : Carta K V} {i : Nat} {b : List (K × V)}
    (hnd : m.KeysNodup) (hb : (keys b).Nodup) :
    Carta.KeysNodup { m with buckets := m.buckets.set i b } := by
  intro b2 hb2
  rcases mem_of_mem_set _ _ _ _ hb2 with h1 | h1
  · exact h1 ▸ hb
  · exact hnd b2 h1

theorem bucket_nodup {m : Carta K V} (hnd : m.KeysNodup) (i : Nat) :
    (keys (m.buckets.getD i [])).Nodup := by
  by_cases hi : i < m.buckets.length
  · exact hnd _ (getD_mem _ _ _ hi)
  · rw [getD_oob _ _ _ (Nat.le_of_not_lt hi)]
    simp [keys]

theorem keysNodup_applyOp [DecidableEq K] {m : Carta K V} (hnd : m.KeysNodup)
    (op : Op K V) : (m.applyOp op).KeysNodup := by
  cases op with
  | insert k v => exact keysNodup_set hnd (nodup_insertLoop (bucket_nodup hnd _))
  | remove k => exact keysNodup_set hnd (nodup_removeLoop (bucket_nodup hnd _))
  | update k f =>
    refine keysNodup_set hnd ?_
    rw [keys_updateLoop]
    exact bucket_nodup hnd _

theorem bucket_absent {m : Carta K V} {k : K} (ha : m.Absent k) (i : Nat) :
    k ∉ keys (m.buckets.getD i []) := by
  by_cases hi : i < m.buckets.length
  · exact ha _ (getD_mem _ _ _ hi)
  · rw [getD_oob _ _ _ (Nat.le_of_not_lt hi)]
    simp [keys]

theorem get_eq_none_of_absent [DecidableEq K] {m : Carta K V} {k : K}
    (ha : m.Absent k) : m.get k = none :=
  getLoop_eq_none (bucket_absent ha _)

theorem absent_set {m : Carta K V} {k : K} {i : Nat} {b : List (K × V)}
    (ha : m.Absent k) (hb : k ∉ keys b) :
    Carta.Absent { m with buckets := m.buckets.set i b } k := by
  intro b2 hb2
  rcases mem_of_mem_set _ _ _ _ hb2 with h1 | h1
  · exact h1 ▸ hb
  · exact ha b2 h1

theorem absent_applyOp [DecidableEq K] {m : Carta K V} {k : K}
    (ha : m.Absent k) {op : Op K V} (hop : ∀ v, op ≠ Op.insert k v) :
    (m.applyOp op).Absent k := by
  cases op with
  | insert k2 v =>
    refine absent_set ha (fun hmem => ?_)
    rcases keys_insertLoop_sub hmem with h1 | h1
    · exact bucket_absent ha _ h1
    · exact hop v (by rw [h1])
  | remove k2 =>
    exact absent_set ha (fun hmem => bucket_absent ha _ (mem_keys_removeLoop hmem))
  | update k2 f =>
    refine absent_set ha (fun hmem => ?_)
    rw [keys_updateLoop] at hmem
    exact bucket_absent ha _ hmem

theorem absent_applyOps [DecidableEq K] {m : Carta K V} {k : K}
    (ha : m.Absent k) {ops : List (Op K V)}
    (hops : ∀ op ∈ ops, ∀ v, op ≠ Op.insert k v) :
    (m.applyOps ops).Absent k := by
  induction ops generalizing m with
  | nil => exact ha
  | cons op rest ih =>
    exact ih (absent_applyOp ha (hops op (List.mem_cons_self op rest)))
      (fun op2 h2 => hops op2 (List.mem_cons_of_mem op h2))

theorem absent_new (hf : K → Nat) (k : K) :
    (Carta.new_with_hash_builder (V := V) hf).Absent k := by
  intro b hb
  simp only [Carta.new_with_hash_builder] at hb
  have hb2 : b = ([] : List (K × V)) := List.eq_of_mem_replicate hb
  simp [hb2, keys]

theorem keysNodup_new (hf : K → Nat) :
    (Carta.new_with_hash_builder (V := V) hf).KeysNodup := by
  intro b hb
  simp only [Carta.new_with_hash_builder] at hb
  have hb2 : b = ([] : List (K × V)) := List.eq_of_mem_replicate hb
  simp [hb2, keys]

theorem length_applyOp [DecidableEq K] (m : Carta K V) (op : Op K V) :
    (m.applyOp op).buckets.length = m.buckets.length := by
  cases op <;>
    simp [Carta.applyOp, Carta.insert, Carta.remove, Carta.update, List.length_set]

theorem hash_applyOp [DecidableEq K] (m : Carta K V) (op : Op K V) :
    (m.applyOp op).hash = m.hash := by
  cases op <;> rfl

end MapLemmas

/-- Claim C1: for every key `k` and value `v`, after `insert(k, v)` completes
on a map (with the positive bucket count every constructed map has), a
subsequent `get(k)` on that map returns the inserted value `v`. -/
theorem carta_insert_get {K V : Type} [DecidableEq K] (m : Carta K V) (k : K)
    (v : V) (h : 0 < m.buckets.length) :
    Carta.get (Carta.insert m k v).2 k = some v :=
  get_insert_self m k v h

/-- Witness for C1 at a concrete map, key and value. -/
theorem carta_insert_get_witness :
    0 < (Carta.new_with_hash_builder (K := Nat) (V := Nat) (fun n => n)).buckets.length ∧
    Carta.get (Carta.insert (Carta.new_with_hash_builder (K := Nat) (V := Nat) (fun n => n)) 5 7).2 5 = some 7 := by
  have h : 0 < (Carta.new_with_hash_builder (K := Nat) (V := Nat) (fun n => n)).buckets.length := by
    rw [length_new]
    decide
  exact ⟨h, carta_insert_get _ 5 7 h⟩

/-- Claim C2: for every key `k` and values `v1`, `v2`, after `insert(k, v1)`,
a later `insert(k, v2)` returns `some v1` (not nothing), and a subsequent
`get(k)` returns `v2`. -/
theorem carta_insert_twice {K V : Type} [DecidableEq K] (m : Carta K V)
    (k : K) (v1 v2 : V) (h : 0 < m.buckets.length) :
    (Carta.insert (Carta.insert m k v1).2 k v2).1 = some v1 ∧
    Carta.get (Carta.insert (Carta.insert m k v1).2 k v2).2 k = some v2 := by
  have hlen : ((m.insert k v1).2).buckets.length = m.buckets.length :=
    length_applyOp m (Op.insert k v1)
  have h1 : 0 < ((m.insert k v1).2).buckets.length := by
    rw [hlen]
    exact h
  constructor
  · rw [insert_fst_eq_get]
    exact get_insert_self m k v1 h
  · exact get_insert_self _ k v2 h1

/-- Witness for C2 at a concrete map, key and values. -/
theorem carta_insert_twice_witness :
    0 < (Carta.new_with_hash_builder (K := Nat) (V := Nat) (fun n => n)).buckets.length ∧
    ((Carta.insert (Carta.insert (Carta.new_with_hash_builder (K := Nat) (V := Nat) (fun n => n)) 5 7).2 5 9).1 = some 7 ∧
      Carta.get (Carta.insert (Carta.insert (Carta.new_with_hash_builder (K := Nat) (V := Nat) (fun n => n)) 5 7).2 5 9).2 5 = some 9) := by
  have h : 0 < (Carta.new_with_hash_builder (K := Nat) (V := Nat) (fun n => n)).buckets.length := by
    rw [length_new]
    decide
  exact ⟨h, carta_insert_twice _ 5 7 9 h⟩

/-- Claim C3: for every key `k` and value `v`, `remove(k)` after
`insert(k, v)` returns `some v` and a subsequent `get(k)` returns nothing
(the bucket invariant of any reachable map is assumed); `remove(k)` on a key
absent from the map returns nothing. -/
theorem carta_insert_remove {K V : Type} [DecidableEq K] (m : Carta K V)
    (k : K) (v : V) (h : 0 < m.buckets.length) (hnd : m.KeysNodup) :
    (Carta.remove (Carta.insert m k v).2 k).1 = some v ∧
    Carta.get (Carta.remove (Carta.insert m k v).2 k).2 k = none ∧
    (Carta.get m k = none → (Carta.remove m k).1 = none) := by
  have hlen : ((m.insert k v).2).buckets.length = m.buckets.length :=
    length_applyOp m (Op.insert k v)
  have h1 : 0 < ((m.insert k v).2).buckets.length := by
    rw [hlen]
    exact h
  have hnd1 : ((m.insert k v).2).KeysNodup := keysNodup_applyOp hnd (Op.insert k v)
  refine ⟨?_, ?_, ?_⟩
  · rw [remove_fst_eq_get]
    exact get_insert_self m k v h
  · exact get_remove_self _ k h1 hnd1
  · intro hg
    rw [remove_fst_eq_get, hg]

/-- Witness for C3 at a concrete map, key and value. -/
theorem carta_insert_remove_witness :
    0 < (Carta.new_with_hash_builder (K := Nat) (V := Nat) (fun n => n)).buckets.length ∧
    ((Carta.remove (Carta.insert (Carta.new_with_hash_builder (K := Nat) (V := Nat) (fun n => n)) 5 7).2 5).1 = some 7 ∧
      Carta.get (Carta.remove (Carta.insert (Carta.new_with_hash_builder (K := Nat) (V := Nat) (fun n => n)) 5 7).2 5).2 5 = none ∧
      (Carta.get (Carta.new_with_hash_builder (K := Nat) (V := Nat) (fun n => n)) 5 = none →
        (Carta.remove (Carta.new_with_hash_builder (K := Nat) (V := Nat) (fun n => n)) 5).1 = none)) := by
  have h : 0 < (Carta.new_with_hash_builder (K := Nat) (V := Nat) (fun n => n)).buckets.length := by
    rw [length_new]
    decide
  exact ⟨h, carta_insert_remove _ 5 7 h (keysNodup_new _)⟩

/-- Claim C4: `update(k, f)` on a key currently mapped to `v` applies `f` to
that value in place, returns the resulting value `f v`, and a subsequent
`get(k)` returns `f v`; `update(k, f)` on an absent key returns nothing and
leaves the entire map state unchanged. -/
theorem carta_update_spec {K V : Type} [DecidableEq K] (m : Carta K V)
    (k : K) (f : V → V) :
    (∀ v, Carta.get m k = some v →
      (Carta.update m k f).1 = some (f v) ∧
      Carta.get (Carta.update m k f).2 k = some (f v)) ∧
    (Carta.get m k = none →
      (Carta.update m k f).1 = none ∧ (Carta.update m k f).2 = m) := by
  constructor
  · intro v hv
    have hpos : 0 < m.buckets.length := by
      by_contra hc
      have h0 : m.buckets.length = 0 := Nat.eq_zero_of_not_pos hc
      have hnone : m.get k = none := by
        rw [get_def, getD_oob _ _ _ (by rw [h0]; exact Nat.zero_le _)]
        rfl
      rw [hnone] at hv
      exact Option.noConfusion hv
    constructor
    · rw [update_fst_eq_get, hv]
      rfl
    · rw [get_update_self m k f hpos, hv]
      rfl
  · intro hnone
    refine ⟨?_, update_snd_of_get_none m k f hnone⟩
    rw [update_fst_eq_get, hnone]
    rfl

/-- Witness for C4 at a concrete map, keys and transformation. -/
theorem carta_update_spec_witness :
    Carta.get (Carta.insert (Carta.new_with_hash_builder (K := Nat) (V := Nat) (fun n => n)) 5 7).2 5 = some 7 ∧
    ((Carta.update (Carta.insert (Carta.new_with_hash_builder (K := Nat) (V := Nat) (fun n => n)) 5 7).2 5 Nat.succ).1 = some 8 ∧
      Carta.get (Carta.update (Carta.insert (Carta.new_with_hash_builder (K := Nat) (V := Nat) (fun n => n)) 5 7).2 5 Nat.succ).2 5 = some 8) ∧
    Carta.get (Carta.new_with_hash_builder (K := Nat) (V := Nat) (fun n => n)) 3 = none ∧
    ((Carta.update (Carta.new_with_hash_builder (K := Nat) (V := Nat) (fun n => n)) 3 Nat.succ).1 = none ∧
      (Carta.update (Carta.new_with_hash_builder (K := Nat) (V := Nat) (fun n => n)) 3 Nat.succ).2 = Carta.new_with_hash_builder (fun n => n)) := by
  have h : 0 < (Carta.new_with_hash_builder (K := Nat) (V := Nat) (fun n => n)).buckets.length := by
    rw [length_new]
    decide
  have hv : Carta.get (Carta.insert (Carta.new_with_hash_builder (K := Nat) (V := Nat) (fun n => n)) 5 7).2 5 = some 7 :=
    get_insert_self _ 5 7 h
  have hn : Carta.get (Carta.new_with_hash_builder (K := Nat) (V := Nat) (fun n => n)) 3 = none :=
    get_eq_none_of_absent (absent_new _ 3)
  exact ⟨hv, (carta_update_spec _ 5 Nat.succ).1 7 hv, hn, (carta_update_spec _ 3 Nat.succ).2 hn⟩

/-- Claim C5: for every key `k` on which no insert has ever been performed —
any sequence of operations starting from a freshly constructed map in which no
operation is an `insert` of `k` — `get(k)` returns nothing; in particular
(the empty sequence) `get` on a freshly constructed map returns nothing for
every key. -/
theorem carta_get_never_inserted {K V : Type} [DecidableEq K] (hf : K → Nat)
    (ops : List (Op K V)) (k : K)
    (hops : ∀ op ∈ ops, ∀ v, op ≠ Op.insert k v) :
    Carta.get (Carta.applyOps (Carta.new_with_hash_builder hf) ops) k = none :=
  get_eq_none_of_absent (absent_applyOps (absent_new hf k) hops)

/-- Witness for C5 at a concrete trace touching other keys. -/
theorem carta_get_never_inserted_witness :
    (∀ op ∈ [Op.insert 1 10, Op.remove 0, Op.update 2 Nat.succ], ∀ v : Nat, op ≠ Op.insert 0 v) ∧
    Carta.get (Carta.applyOps (Carta.new_with_hash_builder (K := Nat) (V := Nat) (fun n => n)) [Op.insert 1 10, Op.remove 0, Op.update 2 Nat.succ]) 0 = none := by
  have hops : ∀ op ∈ [Op.insert 1 10, Op.remove 0, Op.update 2 Nat.succ], ∀ v : Nat, op ≠ Op.insert 0 v := by
    intro op hop v heq
    subst heq
    simp at hop
  exact ⟨hops, carta_get_never_inserted _ _ 0 hops⟩

/-- Counterexample to C6 as stated: the constructor takes the hash provider as
its only argument, so the bucket count is not caller-supplied; at this
concrete call the count is the implementation's own constant `2048 * 16`. -/
theorem carta_bucket_count_not_caller_supplied :
    (Carta.new_with_hash_builder (K := Nat) (V := Nat) (fun n => n)).buckets.length = 2048 * 16 :=
  length_new _

/-- Claim C6 (amended): construction accepts a Hash Provider only; the bucket
count is fixed by the implementation at the positive constant `2048 * 16`
(not supplied by the caller) and cannot be changed after construction — no
operation changes the number of buckets. -/
theorem carta_bucket_count_fixed {K V : Type} [DecidableEq K] (hf : K → Nat)
    (m : Carta K V) (op : Op K V) :
    (Carta.new_with_hash_builder (V := V) hf).buckets.length = 2048 * 16 ∧
    0 < (Carta.new_with_hash_builder (V := V) hf).buckets.length ∧
    (Carta.applyOp m op).buckets.length = m.buckets.length := by
  refine ⟨length_new hf, ?_, length_applyOp m op⟩
  rw [length_new hf]
  decide

/-- Claim C7: bucket index resolution computes `digest(key) mod bucket_count`,
where the digest is the u64 produced afresh from the key alone on every call
(in the embedding the digest is a pure function of the key, so no hasher
state is carried across calls and equal keys always yield the same digest,
hence the same index for a fixed map instance), and the resolved index is
unchanged by any operation performed on the map. -/
theorem carta_get_index_spec {K V : Type} [DecidableEq K] (m : Carta K V)
    (key : K) (op : Op K V) :
    Carta.get_index m key = (m.hash key % 2 ^ 64) % m.buckets.length ∧
    Carta.get_index (Carta.applyOp m op) key = Carta.get_index m key := by
  refine ⟨rfl, ?_⟩
  simp [Carta.get_index, hash_applyOp, length_applyOp]

/-- Claim C8: every operation (insert, remove, update — get does not modify
the map) preserves, from any map state satisfying it, the invariant that
within each single bucket at most one entry exists per distinct key, keys
compared by equality; a freshly constructed map satisfies the invariant, so
it holds in every reachable state. -/
theorem carta_keys_nodup_invariant {K V : Type} [DecidableEq K] (hf : K → Nat)
    (m : Carta K V) (op : Op K V) (hnd : m.KeysNodup) :
    (Carta.new_with_hash_builder (V := V) hf).KeysNodup ∧
    (Carta.applyOp m op).KeysNodup :=
  ⟨keysNodup_new hf, keysNodup_applyOp hnd op⟩

/-- Witness for C8 at a concrete map and operation. -/
theorem carta_keys_nodup_invariant_witness :
    Carta.KeysNodup (Carta.new_with_hash_builder (K := Nat) (V := Nat) (fun n => n)) ∧
    (Carta.KeysNodup (Carta.new_with_hash_builder (K := Nat) (V := Nat) (fun n => n)) ∧
      Carta.KeysNodup (Carta.applyOp (Carta.new_with_hash_builder (K := Nat) (V := Nat) (fun n => n)) (Op.insert 3 4))) := by
  have hnd : Carta.KeysNodup (Carta.new_with_hash_builder (K := Nat) (V := Nat) (fun n => n)) :=
    keysNodup_new _
  exact ⟨hnd, carta_keys_nodup_invariant _ _ (Op.insert 3 4) hnd⟩

/-- Claim C10: for every key, `get_index` returns an index strictly below the
number of buckets whenever that number is positive, and the constructed
bucket vector has the positive constant length `2048 * 16 = 32768`; hence the
bucket indexing performed by insert, get, remove and update is always in
bounds. -/
theorem carta_get_index_in_bounds {K V : Type} (hf : K → Nat) (m : Carta K V)
    (k : K) (h : 0 < m.buckets.length) :
    Carta.get_index m k < m.buckets.length ∧
    (Carta.new_with_hash_builder (V := V) hf).buckets.length = 2048 * 16 :=
  ⟨get_index_lt_of_pos m k h, length_new hf⟩

/-- Witness for C10 at a concrete map and key. -/
theorem carta_get_index_in_bounds_witness :
    0 < (Carta.new_with_hash_builder (K := Nat) (V := Nat) (fun n => n)).buckets.length ∧
    (Carta.get_index (Carta.new_with_hash_builder (K := Nat) (V := Nat) (fun n => n)) 5 < (Carta.new_with_hash_builder (K := Nat) (V := Nat) (fun n => n)).buckets.length ∧
      (Carta.new_with_hash_builder (K := Nat) (V := Nat) (fun n => n)).buckets.length = 2048 * 16) := by
  have h : 0 < (Carta.new_with_hash_builder (K := Nat) (V := Nat) (fun n => n)).buckets.length := by
    rw [length_new]
    decide
  exact ⟨h, carta_get_index_in_bounds _ _ 5 h⟩
